import Mathlib

/-!
Shallow embedding of `src/sourcecode/RankedTextSearch3.py` (`analyze_keywords`).

The Python function takes a list of keyword/ranking dictionaries, coerces the
keyword column to strings, classifies each record primary/Secondary by
case-sensitive substring containment against every other keyword, synthesises
one `Master` row per primary record (summing the rankings of all records whose
keyword text differs from, and is a substring of, the primary's keyword),
records a keyword-to-master group map with last-write-wins overwrites, and
finally sorts the concatenation of the classified rows with the master rows by
the composite key (master group, class tier, keyword).

Rankings are embedded generically in a type `R` with an addition: the claims
about well-formed inputs are stated at `R = ℤ`, and the pandas behaviour on
records with a missing value is stated at `R = WithBot ℤ`, whose bottom
element models the absorbing float NaN.
-/

namespace RankedTextSearch

/-- Boolean test that `n` occurs as a contiguous sublist of `h`; this models
the Python substring operator `other in current` on strings (case-sensitive,
exact, contiguous). -/
def infixB : List Char → List Char → Bool
  | n, [] => n.isEmpty
  | n, c :: t => n.isPrefixOf (c :: t) || infixB n t

/-- Python `needle in hay` on strings. -/
def substrB (needle hay : String) : Bool := infixB needle.data hay.data

/-- One working-table row after the rename and the `astype(str)` coercion of
the `Keyword` column: a keyword text and a ranking drawn from the numeric
type `R`. -/
structure KeywordRecord (R : Type) where
  keyword : String
  ranking : R
deriving DecidableEq, Repr

/-- The closed enumeration the categorical `Class` column ranges over, in the
source's spelling `Master`, `primary`, `Secondary`; the fixed category order
of the source's `class_order` list is `Master < primary < Secondary`. -/
inductive RowClass
  | Master
  | Primary
  | Secondary
deriving DecidableEq, Repr

/-- One row of the final table: keyword, ranking and class. -/
structure OutputRow (R : Type) where
  keyword : String
  ranking : R
  cls : RowClass
deriving DecidableEq, Repr

variable {R : Type}

/-- The list `all_keywords = df['Keyword'].tolist()` of step 1. -/
def all_keywords (input : List (KeywordRecord R)) : List String :=
  input.map (·.keyword)

/-- Step 1 inner loop: a keyword is primary when some keyword of the list
differs from it as text and occurs in it as a substring. -/
def is_primary (kws : List String) (current : String) : Bool :=
  kws.any (fun other => current != other && substrB other current)

/-- Step 1: every record annotated with its class. -/
def classify (input : List (KeywordRecord R)) : List (OutputRow R) :=
  input.map (fun r =>
    { keyword := r.keyword, ranking := r.ranking,
      cls := if is_primary (all_keywords input) r.keyword
             then RowClass.Primary else RowClass.Secondary })

/-- The rows of `primary_keywords_df = df[df['Class'] == 'primary']`, in
original input order. -/
def primary_keywords (input : List (KeywordRecord R)) : List (KeywordRecord R) :=
  input.filter (fun r => is_primary (all_keywords input) r.keyword)

/-- The records visited by the body of the step 2 inner loop for a given
master keyword: keyword text different from the master's and a substring
of it. -/
def sub_rows (input : List (KeywordRecord R)) (master : String) :
    List (KeywordRecord R) :=
  input.filter (fun o => o.keyword != master && substrB o.keyword master)

/-- The `master_ranking_sum` accumulated for one primary record: its own
ranking plus, in input order, the ranking of every record of `sub_rows`. -/
def master_ranking_sum [Add R] (input : List (KeywordRecord R))
    (p : KeywordRecord R) : R :=
  (sub_rows input p.keyword).foldl (fun s o => s + o.ranking) p.ranking

/-- The `master_rows` list built by step 2, one `Master` row per primary
record in input order. -/
def master_rows [Add R] (input : List (KeywordRecord R)) : List (OutputRow R) :=
  (primary_keywords input).map (fun p =>
    { keyword := p.keyword, ranking := master_ranking_sum input p,
      cls := RowClass.Master })

/-- The Python dict `keyword_master_group_map`, as an association list where
the most recent binding of a key comes first. -/
def GroupMap : Type := List (String × String)

/-- Dictionary store `m[k] = v`. -/
def dictInsert (m : GroupMap) (k v : String) : GroupMap := (k, v) :: m

/-- Dictionary lookup `m.get(k, dflt)`. -/
def dictGet (m : GroupMap) (k dflt : String) : String :=
  match m.find? (fun kv => kv.1 == k) with
  | some kv => kv.2
  | none => dflt

/-- The map writes performed while step 2 processes one primary record: first
the self registration `map[master] = master`, then `map[o] = master` for each
record of `sub_rows` in input order.  In the source these writes share the
inner loop with the ranking accumulation; the two accumulators are
independent, so they are embedded as separate folds over the same rows. -/
def group_map_step (input : List (KeywordRecord R)) (m : GroupMap)
    (p : KeywordRecord R) : GroupMap :=
  (sub_rows input p.keyword).foldl (fun acc o => dictInsert acc o.keyword p.keyword)
    (dictInsert m p.keyword p.keyword)

/-- The finished `keyword_master_group_map` after step 2 has processed every
primary record in input order. -/
def keyword_master_group_map (input : List (KeywordRecord R)) : GroupMap :=
  (primary_keywords input).foldl (group_map_step input) []

/-- Position of a class in the source's `class_order` categorical order
`['Master', 'primary', 'Secondary']`. -/
def tierRank : RowClass → Nat
  | RowClass.Master => 0
  | RowClass.Primary => 1
  | RowClass.Secondary => 2

/-- Boolean strict lexicographic comparison of character lists by code point,
the comparison pandas uses on the string columns of the sort key. -/
def lexLtB : List Char → List Char → Bool
  | [], [] => false
  | [], _ :: _ => true
  | _ :: _, [] => false
  | a :: as, b :: bs => if a < b then true else if b < a then false else lexLtB as bs

/-- Strict string comparison by code-point lexicographic order. -/
def strLtB (a b : String) : Bool := lexLtB a.data b.data

/-- The temporary `MasterGroup` column: look the keyword up in the map,
falling back to the keyword itself. -/
def masterGroup (m : GroupMap) (kw : String) : String := dictGet m kw kw

/-- The composite sort key of one row: the temporary `MasterGroup` column,
the categorical rank of the `Class` column, and the `Keyword` column. -/
def sortKey (m : GroupMap) (r : OutputRow R) : String × Nat × String :=
  (masterGroup m r.keyword, tierRank r.cls, r.keyword)

/-- Weak lexicographic comparison of composite sort keys. -/
def keyLeB (a b : String × Nat × String) : Bool :=
  strLtB a.1 b.1 ||
    (a.1 == b.1 &&
      (decide (a.2.1 < b.2.1) ||
        (a.2.1 == b.2.1 && (strLtB a.2.2 b.2.2 || a.2.2 == b.2.2))))

/-- The comparison realising `sort_values(by=['MasterGroup', 'Class',
'Keyword'], ascending=True)`: weak lexicographic order on the composite key
(master group, class tier, keyword). -/
def rowLeB (m : GroupMap) (a b : OutputRow R) : Bool :=
  keyLeB (sortKey m a) (sortKey m b)

/-- The whole pipeline.  On the empty list the real function raises a
`KeyError` (the empty frame has no `Keyword` column to coerce), embedded here
as `none`; otherwise it returns the classified rows concatenated with the
master rows, sorted ascending by (master group, class tier, keyword). -/
def analyze_keywords [Add R] (data : List (KeywordRecord R)) :
    Option (List (OutputRow R)) :=
  if data.isEmpty then none
  else
    some (List.insertionSort
      (fun a b => rowLeB (keyword_master_group_map data) a b = true)
      (classify data ++ master_rows data))

/-- One raw input dictionary, before the pandas load: either field may be
absent. -/
structure RawRecord where
  keyword : Option String
  ranking : Option Int
deriving DecidableEq, Repr

/-- Pandas load of one raw row: a missing keyword becomes float NaN, which
`astype(str)` renders as the text "nan"; a missing ranking stays NaN, an
absorbing element of addition, modelled by the bottom element of
`WithBot ℤ`. -/
def loadRecord (r : RawRecord) : KeywordRecord (WithBot ℤ) :=
  { keyword := r.keyword.getD "nan",
    ranking := match r.ranking with
               | some n => (n : WithBot ℤ)
               | none => ⊥ }

/-- The pipeline on raw rows, at least one of which carries each column. -/
def analyze_raw (raw : List RawRecord) : Option (List (OutputRow (WithBot ℤ))) :=
  analyze_keywords (raw.map loadRecord)

/-! ### Properties of the embedded primitives -/

theorem infixB_iff : ∀ n h : List Char, infixB n h = true ↔ n <:+: h := by
  intro n h
  induction h with
  | nil => simp [infixB, List.infix_nil]
  | cons c t ih =>
    rw [infixB, Bool.or_eq_true, ih, List.isPrefixOf_iff_prefix, List.infix_cons_iff]

theorem substrB_iff (n h : String) : substrB n h = true ↔ n.data <:+: h.data :=
  infixB_iff n.data h.data

theorem substrB_self (s : String) : substrB s s = true :=
  (substrB_iff s s).mpr (List.infix_refl _)

theorem lexLtB_iff : ∀ a b : List Char, lexLtB a b = true ↔ List.Lex (· < ·) a b := by
  intro a
  induction a with
  | nil =>
    intro b
    cases b with
    | nil =>
      constructor
      · intro h; simp [lexLtB] at h
      · intro h; cases h
    | cons y ys =>
      constructor
      · intro _; exact List.Lex.nil
      · intro _; rfl
  | cons x xs ih =>
    intro b
    cases b with
    | nil =>
      constructor
      · intro h; simp [lexLtB] at h
      · intro h; cases h
    | cons y ys =>
      rw [lexLtB]
      constructor
      · intro h
        rcases lt_trichotomy x y with hxy | hxy | hxy
        · exact List.Lex.rel hxy
        · subst hxy
          rw [if_neg (lt_irrefl x), if_neg (lt_irrefl x)] at h
          exact List.Lex.cons ((ih ys).mp h)
        · rw [if_neg (lt_asymm hxy), if_pos hxy] at h
          exact absurd h (by simp)
      · intro h
        cases h with
        | cons h' =>
          rw [if_neg (lt_irrefl x), if_neg (lt_irrefl x)]
          exact (ih ys).mpr h'
        | rel hr => rw [if_pos hr]

theorem strLtB_iff_lt (a b : String) : strLtB a b = true ↔ a < b :=
  (lexLtB_iff a.data b.data).trans String.lt_iff_toList_lt.symm

/-- Unfolding of the composite-key comparison into the lexicographic
disjunction over the three components. -/
theorem keyLeB_iff (a b : String × Nat × String) :
    keyLeB a b = true ↔
      (a.1 < b.1 ∨ (a.1 = b.1 ∧ (a.2.1 < b.2.1 ∨
        (a.2.1 = b.2.1 ∧ (a.2.2 < b.2.2 ∨ a.2.2 = b.2.2))))) := by
  simp only [keyLeB, Bool.or_eq_true, Bool.and_eq_true, decide_eq_true_eq,
    beq_iff_eq, strLtB_iff_lt]

theorem keyLeB_total (a b : String × Nat × String) :
    keyLeB a b = true ∨ keyLeB b a = true := by
  rw [keyLeB_iff, keyLeB_iff]
  rcases lt_trichotomy a.1 b.1 with h1 | h1 | h1
  · exact Or.inl (Or.inl h1)
  · rcases lt_trichotomy a.2.1 b.2.1 with h2 | h2 | h2
    · exact Or.inl (Or.inr ⟨h1, Or.inl h2⟩)
    · rcases lt_trichotomy a.2.2 b.2.2 with h3 | h3 | h3
      · exact Or.inl (Or.inr ⟨h1, Or.inr ⟨h2, Or.inl h3⟩⟩)
      · exact Or.inl (Or.inr ⟨h1, Or.inr ⟨h2, Or.inr h3⟩⟩)
      · exact Or.inr (Or.inr ⟨h1.symm, Or.inr ⟨h2.symm, Or.inl h3⟩⟩)
    · exact Or.inr (Or.inr ⟨h1.symm, Or.inl h2⟩)
  · exact Or.inr (Or.inl h1)

theorem keyLeB_trans (a b c : String × Nat × String) :
    keyLeB a b = true → keyLeB b c = true → keyLeB a c = true := by
  rw [keyLeB_iff, keyLeB_iff, keyLeB_iff]
  intro hab hbc
  rcases hab with h1 | ⟨e1, hab⟩
  · rcases hbc with h1' | ⟨e1', _⟩
    · exact Or.inl (lt_trans h1 h1')
    · exact Or.inl (e1' ▸ h1)
  · rcases hbc with h1' | ⟨e1', hbc⟩
    · exact Or.inl (e1 ▸ h1')
    · refine Or.inr ⟨e1.trans e1', ?_⟩
      rcases hab with h2 | ⟨e2, hab⟩
      · rcases hbc with h2' | ⟨e2', _⟩
        · exact Or.inl (lt_trans h2 h2')
        · exact Or.inl (e2' ▸ h2)
      · rcases hbc with h2' | ⟨e2', hbc⟩
        · exact Or.inl (e2 ▸ h2')
        · refine Or.inr ⟨e2.trans e2', ?_⟩
          rcases hab with h3 | e3
          · rcases hbc with h3' | e3'
            · exact Or.inl (lt_trans h3 h3')
            · exact Or.inl (e3' ▸ h3)
          · rcases hbc with h3' | e3'
            · exact Or.inl (e3 ▸ h3')
            · exact Or.inr (e3.trans e3')

theorem rowLeB_total (m : GroupMap) (a b : OutputRow R) :
    rowLeB m a b = true ∨ rowLeB m b a = true :=
  keyLeB_total (sortKey m a) (sortKey m b)

theorem rowLeB_trans (m : GroupMap) (a b c : OutputRow R) :
    rowLeB m a b = true → rowLeB m b c = true → rowLeB m a c = true :=
  keyLeB_trans (sortKey m a) (sortKey m b) (sortKey m c)

/-! ### Dictionary lemmas -/

theorem dictGet_insert (m : GroupMap) (k v k0 d : String) :
    dictGet (dictInsert m k v) k0 d = if k0 = k then v else dictGet m k0 d := by
  by_cases h : k0 = k
  · subst h; simp [dictGet, dictInsert]
  · have hbe : (k == k0) = false := by
      rw [beq_eq_false_iff_ne]
      exact fun e => h e.symm
    simp [dictGet, dictInsert, List.find?_cons, hbe, h]

theorem dictGet_foldl_insert (v : String) :
    ∀ (l : List (KeywordRecord R)) (m : GroupMap) (k d : String),
      dictGet (l.foldl (fun acc o => dictInsert acc o.keyword v) m) k d =
        if k ∈ l.map (·.keyword) then v else dictGet m k d := by
  intro l
  induction l with
  | nil => intro m k d; simp
  | cons o t ih =>
    intro m k d
    rw [List.foldl_cons, ih]
    by_cases h : k ∈ t.map (·.keyword)
    · simp [h]
    · rw [if_neg h, dictGet_insert]
      by_cases h2 : k = o.keyword
      · simp [h2]
      · simp [h, h2]

theorem dictGet_group_map_step (input : List (KeywordRecord R)) (m : GroupMap)
    (p : KeywordRecord R) (k d : String) (hk : k ∈ all_keywords input) :
    dictGet (group_map_step input m p) k d =
      if substrB k p.keyword = true then p.keyword else dictGet m k d := by
  rw [group_map_step, dictGet_foldl_insert, dictGet_insert]
  by_cases hs : substrB k p.keyword = true
  · rw [if_pos hs]
    by_cases hm : k ∈ (sub_rows input p.keyword).map (·.keyword)
    · rw [if_pos hm]
    · rw [if_neg hm]
      by_cases he : k = p.keyword
      · rw [if_pos he]
      · exfalso
        apply hm
        rcases List.mem_map.mp hk with ⟨o, ho, rfl⟩
        refine List.mem_map.mpr ⟨o, List.mem_filter.mpr ⟨ho, ?_⟩, rfl⟩
        simp [sub_rows, bne_iff_ne, he, hs]
  · rw [if_neg hs]
    have hm : k ∉ (sub_rows input p.keyword).map (·.keyword) := by
      intro hmem
      rcases List.mem_map.mp hmem with ⟨o, ho, hko⟩
      have h2 := (List.mem_filter.mp ho).2
      rw [Bool.and_eq_true] at h2
      exact hs (hko ▸ h2.2)
    rw [if_neg hm]
    have hne : k ≠ p.keyword := fun e => hs (e ▸ substrB_self p.keyword)
    rw [if_neg hne]

theorem dictGet_foldl_group (input : List (KeywordRecord R)) (k d : String)
    (hk : k ∈ all_keywords input) :
    ∀ (l : List (KeywordRecord R)) (m : GroupMap),
      dictGet (l.foldl (group_map_step input) m) k d =
        match (l.filter (fun p => substrB k p.keyword)).getLast? with
        | some p => p.keyword
        | none => dictGet m k d := by
  intro l
  induction l with
  | nil => intro m; simp
  | cons p t ih =>
    intro m
    rw [List.foldl_cons, ih, List.filter_cons]
    by_cases hp : substrB k p.keyword = true
    · rw [if_pos hp, List.getLast?_cons]
      cases hgl : (t.filter (fun q => substrB k q.keyword)).getLast? with
      | some q => rfl
      | none => simp [dictGet_group_map_step input m p k d hk, hp]
    · rw [if_neg hp]
      cases hgl : (t.filter (fun q => substrB k q.keyword)).getLast? with
      | some q => rfl
      | none => simp [dictGet_group_map_step input m p k d hk, hp]

/-- The finished map sends any keyword text `k` of the input to the keyword of
the last primary record, in input order, whose keyword contains `k` as a
substring (each primary's pass over `k` overwrites the binding; the primary's
own self registration counts), and leaves `k` unbound when no primary keyword
contains it. -/
theorem keyword_master_group_map_lookup (input : List (KeywordRecord R))
    (k : String) (hk : k ∈ all_keywords input) :
    dictGet (keyword_master_group_map input) k k =
      match ((primary_keywords input).filter (fun p => substrB k p.keyword)).getLast? with
      | some p => p.keyword
      | none => k := by
  rw [keyword_master_group_map, dictGet_foldl_group input k k hk]
  cases hgl : ((primary_keywords input).filter (fun p => substrB k p.keyword)).getLast? with
  | some q => rfl
  | none => rfl

/-! ### Structural lemmas about the pipeline stages -/

theorem mem_classify {input : List (KeywordRecord R)} {r : OutputRow R} :
    r ∈ classify input ↔ ∃ s ∈ input,
      r = { keyword := s.keyword, ranking := s.ranking,
            cls := if is_primary (all_keywords input) s.keyword
                   then RowClass.Primary else RowClass.Secondary } := by
  rw [classify, List.mem_map]
  constructor
  · rintro ⟨s, hs, rfl⟩; exact ⟨s, hs, rfl⟩
  · rintro ⟨s, hs, rfl⟩; exact ⟨s, hs, rfl⟩

theorem classify_cls_ne_master {input : List (KeywordRecord R)} {r : OutputRow R}
    (h : r ∈ classify input) : r.cls ≠ RowClass.Master := by
  rcases mem_classify.mp h with ⟨s, _, rfl⟩
  by_cases hp : is_primary (all_keywords input) s.keyword = true <;> simp [hp]

theorem mem_master_rows [Add R] {input : List (KeywordRecord R)} {r : OutputRow R} :
    r ∈ master_rows input ↔ ∃ p ∈ primary_keywords input,
      r = { keyword := p.keyword, ranking := master_ranking_sum input p,
            cls := RowClass.Master } := by
  rw [master_rows, List.mem_map]
  constructor
  · rintro ⟨p, hp, rfl⟩; exact ⟨p, hp, rfl⟩
  · rintro ⟨p, hp, rfl⟩; exact ⟨p, hp, rfl⟩

theorem master_rows_cls [Add R] {input : List (KeywordRecord R)} {r : OutputRow R}
    (h : r ∈ master_rows input) : r.cls = RowClass.Master := by
  rcases mem_master_rows.mp h with ⟨p, _, rfl⟩
  rfl

theorem analyze_some_iff [Add R] {input : List (KeywordRecord R)}
    {out : List (OutputRow R)} :
    analyze_keywords input = some out ↔
      input ≠ [] ∧
        out = List.insertionSort
          (fun a b => rowLeB (keyword_master_group_map input) a b = true)
          (classify input ++ master_rows input) := by
  rw [analyze_keywords]
  by_cases h : input.isEmpty
  · rw [if_pos h]
    simp [List.isEmpty_iff.mp h]
  · rw [if_neg h]
    have hne : input ≠ [] := fun e => h (List.isEmpty_iff.mpr e)
    constructor
    · intro he
      exact ⟨hne, (Option.some.inj he).symm⟩
    · rintro ⟨-, rfl⟩
      rfl

theorem analyze_perm [Add R] {input : List (KeywordRecord R)}
    {out : List (OutputRow R)} (h : analyze_keywords input = some out) :
    out.Perm (classify input ++ master_rows input) := by
  rcases analyze_some_iff.mp h with ⟨_, rfl⟩
  exact List.perm_insertionSort _ _

theorem master_ranking_sum_eq {R : Type} [AddCommMonoid R]
    (input : List (KeywordRecord R)) (p : KeywordRecord R) :
    master_ranking_sum input p =
      p.ranking + ((sub_rows input p.keyword).map (·.ranking)).sum := by
  rw [master_ranking_sum]
  have key : ∀ (l : List (KeywordRecord R)) (init : R),
      l.foldl (fun s o => s + o.ranking) init = init + (l.map (·.ranking)).sum := by
    intro l
    induction l with
    | nil => intro init; simp
    | cons o t ih =>
      intro init
      rw [List.foldl_cons, ih, List.map_cons, List.sum_cons, add_assoc]
  exact key _ _

/-! ### The claims -/

/-- C1: a record is classified Primary if and only if some record of the
input whose keyword text differs from its own occurs as a contiguous,
case-sensitive substring of its keyword; otherwise it is Secondary.  In
particular two records with identical keyword text never make each other
Primary. -/
theorem claim_C1 (input : List (KeywordRecord ℤ)) (r : OutputRow ℤ)
    (h : r ∈ classify input) :
    r.cls = RowClass.Primary ↔
      ∃ o ∈ input, o.keyword ≠ r.keyword ∧ o.keyword.data <:+: r.keyword.data := by
  rcases mem_classify.mp h with ⟨s, hs, rfl⟩
  have key : is_primary (all_keywords input) s.keyword = true ↔
      ∃ o ∈ input, o.keyword ≠ s.keyword ∧ o.keyword.data <:+: s.keyword.data := by
    rw [is_primary, List.any_eq_true]
    constructor
    · rintro ⟨x, hx, hcond⟩
      rw [Bool.and_eq_true, bne_iff_ne] at hcond
      rcases List.mem_map.mp hx with ⟨o, ho, rfl⟩
      exact ⟨o, ho, fun e => hcond.1 e.symm, (substrB_iff _ _).mp hcond.2⟩
    · rintro ⟨o, ho, hne, hinf⟩
      refine ⟨o.keyword, List.mem_map.mpr ⟨o, ho, rfl⟩, ?_⟩
      rw [Bool.and_eq_true, bne_iff_ne]
      exact ⟨fun e => hne e.symm, (substrB_iff _ _).mpr hinf⟩
  by_cases hp : is_primary (all_keywords input) s.keyword = true
  · simp only [hp, if_true]
    exact ⟨fun _ => key.mp hp, fun _ => trivial⟩
  · simp only [hp, if_false]
    exact ⟨fun hcls => absurd hcls (by decide), fun hx => absurd (key.mpr hx) hp⟩

/-- Witness for C1 at the input `[("ab", 1), ("b", 2)]`, whose first record
is classified Primary because "b" is a substring of "ab". -/
theorem claim_C1_witness :
    ((⟨"ab", 1, RowClass.Primary⟩ : OutputRow ℤ) ∈
        classify [⟨"ab", 1⟩, ⟨"b", 2⟩]) ∧
      ((⟨"ab", 1, RowClass.Primary⟩ : OutputRow ℤ).cls = RowClass.Primary ↔
        ∃ o ∈ [(⟨"ab", 1⟩ : KeywordRecord ℤ), ⟨"b", 2⟩],
          o.keyword ≠ "ab" ∧ o.keyword.data <:+: "ab".data) :=
  ⟨by decide, claim_C1 _ _ (by decide)⟩

/-- C3 counterexample: in `[("ab", 1), ("abc", 2), ("b", 3)]` the record
"ab" is Primary, yet the finished map does not send "ab" to itself: the
later primary "abc" contains "ab" and overwrites the binding. -/
theorem claim_C3_counterexample :
    (⟨"ab", 1⟩ : KeywordRecord ℤ) ∈
        primary_keywords [⟨"ab", 1⟩, ⟨"abc", 2⟩, ⟨"b", 3⟩] ∧
      dictGet (keyword_master_group_map
        [(⟨"ab", 1⟩ : KeywordRecord ℤ), ⟨"abc", 2⟩, ⟨"b", 3⟩]) "ab" "ab" ≠ "ab" := by
  decide

/-- C3 as amended: after aggregation, every Primary keyword that is not a
proper substring of another Primary record's keyword maps to itself in the
finished MasterGroupMap. -/
theorem claim_C3 (input : List (KeywordRecord ℤ)) (p : KeywordRecord ℤ)
    (hp : p ∈ primary_keywords input)
    (hmax : ∀ q ∈ primary_keywords input, q.keyword ≠ p.keyword →
      ¬ p.keyword.data <:+: q.keyword.data) :
    dictGet (keyword_master_group_map input) p.keyword p.keyword = p.keyword := by
  have hin : p.keyword ∈ all_keywords input := by
    rw [primary_keywords] at hp
    exact List.mem_map.mpr ⟨p, (List.mem_filter.mp hp).1, rfl⟩
  rw [keyword_master_group_map_lookup input p.keyword hin]
  cases hgl : ((primary_keywords input).filter
      (fun q => substrB p.keyword q.keyword)).getLast? with
  | none => rfl
  | some q =>
    have hqmem : q ∈ (primary_keywords input).filter
        (fun q => substrB p.keyword q.keyword) := by
      rcases List.mem_getLast?_eq_getLast (Option.mem_def.mpr hgl) with ⟨hne, hq⟩
      exact hq ▸ List.getLast_mem hne
    obtain ⟨hqp, hqs⟩ := List.mem_filter.mp hqmem
    by_cases he : q.keyword = p.keyword
    · exact he
    · exact absurd ((substrB_iff _ _).mp hqs) (hmax q hqp he)

/-- Witness for the amended C3 at `[("ab", 1), ("b", 2)]`: the only Primary
keyword "ab" is contained in no other primary keyword and maps to itself. -/
theorem claim_C3_witness :
    ((⟨"ab", 1⟩ : KeywordRecord ℤ) ∈ primary_keywords [⟨"ab", 1⟩, ⟨"b", 2⟩]) ∧
      (∀ q ∈ primary_keywords [(⟨"ab", 1⟩ : KeywordRecord ℤ), ⟨"b", 2⟩],
        q.keyword ≠ "ab" → ¬ ("ab" : String).data <:+: q.keyword.data) ∧
      dictGet (keyword_master_group_map
        [(⟨"ab", 1⟩ : KeywordRecord ℤ), ⟨"b", 2⟩]) "ab" "ab" = "ab" :=
  ⟨by decide, by decide,
    claim_C3 [⟨"ab", 1⟩, ⟨"b", 2⟩] ⟨"ab", 1⟩ (by decide) (by decide)⟩

/-- C4 counterexample: in `[("abc", 1), ("abd", 1), ("ab", 1), ("b", 1)]`
the keyword "ab" is a proper substring of exactly the two Primary keywords
"abc" and "abd", the last of which in input order is "abd"; yet the finished
map sends "ab" to "ab" (its own later self-registration as a Primary), not
to "abd". -/
theorem claim_C4_counterexample :
    ("ab" ∈ all_keywords
        [(⟨"abc", 1⟩ : KeywordRecord ℤ), ⟨"abd", 1⟩, ⟨"ab", 1⟩, ⟨"b", 1⟩]) ∧
      (primary_keywords
          [(⟨"abc", 1⟩ : KeywordRecord ℤ), ⟨"abd", 1⟩, ⟨"ab", 1⟩, ⟨"b", 1⟩]).filter
          (fun p => p.keyword != "ab" && substrB "ab" p.keyword) =
        [⟨"abc", 1⟩, ⟨"abd", 1⟩] ∧
      dictGet (keyword_master_group_map
        [(⟨"abc", 1⟩ : KeywordRecord ℤ), ⟨"abd", 1⟩, ⟨"ab", 1⟩, ⟨"b", 1⟩])
        "ab" "ab" = "ab" ∧
      dictGet (keyword_master_group_map
        [(⟨"abc", 1⟩ : KeywordRecord ℤ), ⟨"abd", 1⟩, ⟨"ab", 1⟩, ⟨"b", 1⟩])
        "ab" "ab" ≠ "abd" := by
  decide

/-- C4 as amended: a keyword text `k` of the input that is a substring of at
least one Primary keyword is mapped to the keyword of the last Primary
record in input order whose keyword contains `k` as a substring, where a
Primary record whose keyword equals `k` counts as containing it (its
self-registration also writes the binding); last write wins. -/
theorem claim_C4 (input : List (KeywordRecord ℤ)) (k : String)
    (hk : k ∈ all_keywords input) (q : KeywordRecord ℤ)
    (hq : ((primary_keywords input).filter
      (fun p => substrB k p.keyword)).getLast? = some q) :
    dictGet (keyword_master_group_map input) k k = q.keyword := by
  rw [keyword_master_group_map_lookup input k hk, hq]

/-- Witness for the amended C4 at `[("abc", 1), ("abd", 1), ("ab", 1),
("b", 1)]` with `k = "ab"`: the last Primary whose keyword contains "ab" is
the record "ab" itself, and the map sends "ab" there. -/
theorem claim_C4_witness :
    ("ab" ∈ all_keywords
        [(⟨"abc", 1⟩ : KeywordRecord ℤ), ⟨"abd", 1⟩, ⟨"ab", 1⟩, ⟨"b", 1⟩]) ∧
      ((primary_keywords
          [(⟨"abc", 1⟩ : KeywordRecord ℤ), ⟨"abd", 1⟩, ⟨"ab", 1⟩, ⟨"b", 1⟩]).filter
          (fun p => substrB "ab" p.keyword)).getLast? = some ⟨"ab", 1⟩ ∧
      dictGet (keyword_master_group_map
        [(⟨"abc", 1⟩ : KeywordRecord ℤ), ⟨"abd", 1⟩, ⟨"ab", 1⟩, ⟨"b", 1⟩])
        "ab" "ab" = (⟨"ab", 1⟩ : KeywordRecord ℤ).keyword :=
  ⟨by decide, by decide,
    claim_C4 [⟨"abc", 1⟩, ⟨"abd", 1⟩, ⟨"ab", 1⟩, ⟨"b", 1⟩] "ab" (by decide)
      ⟨"ab", 1⟩ (by decide)⟩

/-- C2 counterexample: in `[("ab", 5), ("ab", 7), ("a", 1)]` both "ab"
records are Primary and each produces a Master row ("ab" with ranking 6 and
"ab" with ranking 8), while the sum of the rankings of all records whose
keyword is a substring of, or equal to, "ab" — counted exactly once each,
including the duplicate "ab" records — is 5 + 7 + 1 = 13. -/
theorem claim_C2_counterexample :
    analyze_keywords [(⟨"ab", 5⟩ : KeywordRecord ℤ), ⟨"ab", 7⟩, ⟨"a", 1⟩] =
        some [⟨"ab", 6, RowClass.Master⟩, ⟨"ab", 8, RowClass.Master⟩,
          ⟨"ab", 5, RowClass.Primary⟩, ⟨"ab", 7, RowClass.Primary⟩,
          ⟨"a", 1, RowClass.Secondary⟩] ∧
      ∃ r ∈ [(⟨"ab", 6, RowClass.Master⟩ : OutputRow ℤ),
          ⟨"ab", 8, RowClass.Master⟩, ⟨"ab", 5, RowClass.Primary⟩,
          ⟨"ab", 7, RowClass.Primary⟩, ⟨"a", 1, RowClass.Secondary⟩],
        r.cls = RowClass.Master ∧
          r.ranking ≠ (([(⟨"ab", 5⟩ : KeywordRecord ℤ), ⟨"ab", 7⟩, ⟨"a", 1⟩].filter
              (fun o => substrB o.keyword r.keyword || o.keyword == r.keyword)).map
            (fun o => o.ranking)).sum := by
  decide

/-- C2 as amended: every Master row of the output arises from a Primary
record `p` carrying the master's keyword, and its ranking equals `p`'s own
ranking plus the sum of the rankings of exactly those input records whose
keyword text differs from the master's keyword and is a substring of it,
each counted once; records other than `p` itself whose keyword text equals
the master's are not counted. -/
theorem claim_C2 (input : List (KeywordRecord ℤ)) (out : List (OutputRow ℤ))
    (h : analyze_keywords input = some out) (r : OutputRow ℤ) (hr : r ∈ out)
    (hm : r.cls = RowClass.Master) :
    ∃ p ∈ input, p.keyword = r.keyword ∧
      is_primary (all_keywords input) p.keyword = true ∧
      r.ranking = p.ranking +
        ((input.filter
            (fun o => o.keyword != p.keyword && substrB o.keyword p.keyword)).map
          (fun o => o.ranking)).sum := by
  have hmem := (List.Perm.mem_iff (analyze_perm h)).mp hr
  rcases List.mem_append.mp hmem with hc | hmr
  · exact absurd hm (classify_cls_ne_master hc)
  · rcases mem_master_rows.mp hmr with ⟨p, hp, rfl⟩
    rw [primary_keywords] at hp
    obtain ⟨hpin, hpp⟩ := List.mem_filter.mp hp
    refine ⟨p, hpin, rfl, hpp, ?_⟩
    show master_ranking_sum input p = _
    rw [master_ranking_sum_eq, sub_rows]

/-- Witness for the amended C2 at `[("ab", 1), ("b", 2)]`: the Master row
"ab" has ranking 3 = 1 + 2. -/
theorem claim_C2_witness :
    analyze_keywords [(⟨"ab", 1⟩ : KeywordRecord ℤ), ⟨"b", 2⟩] =
        some [⟨"ab", 3, RowClass.Master⟩, ⟨"ab", 1, RowClass.Primary⟩,
          ⟨"b", 2, RowClass.Secondary⟩] ∧
      ∃ p ∈ [(⟨"ab", 1⟩ : KeywordRecord ℤ), ⟨"b", 2⟩],
        p.keyword = "ab" ∧
        is_primary (all_keywords [(⟨"ab", 1⟩ : KeywordRecord ℤ), ⟨"b", 2⟩])
          p.keyword = true ∧
        (3 : ℤ) = p.ranking +
          (([(⟨"ab", 1⟩ : KeywordRecord ℤ), ⟨"b", 2⟩].filter
              (fun o => o.keyword != p.keyword && substrB o.keyword p.keyword)).map
            (fun o => o.ranking)).sum :=
  ⟨by decide,
    claim_C2 [⟨"ab", 1⟩, ⟨"b", 2⟩]
      [⟨"ab", 3, RowClass.Master⟩, ⟨"ab", 1, RowClass.Primary⟩,
        ⟨"b", 2, RowClass.Secondary⟩]
      (by decide) ⟨"ab", 3, RowClass.Master⟩ (by decide) rfl⟩

/-- C6: on `[("running shoe", 7), ("shoe", 3), ("red running shoe", 2)]` the
record "shoe" is Secondary, "running shoe" and "red running shoe" are
Primary, and the output holds exactly two Master rows, "running shoe" with
ranking 10 = 7 + 3 and "red running shoe" with ranking 12 = 2 + 7 + 3:
overlapping substring matches are summed independently per master. -/
theorem claim_C6 :
    analyze_keywords [(⟨"running shoe", 7⟩ : KeywordRecord ℤ), ⟨"shoe", 3⟩,
        ⟨"red running shoe", 2⟩] =
      some [⟨"red running shoe", 12, RowClass.Master⟩,
        ⟨"running shoe", 10, RowClass.Master⟩,
        ⟨"red running shoe", 2, RowClass.Primary⟩,
        ⟨"running shoe", 7, RowClass.Primary⟩,
        ⟨"shoe", 3, RowClass.Secondary⟩] ∧
      List.filter (fun r => r.cls == RowClass.Master)
          [(⟨"red running shoe", 12, RowClass.Master⟩ : OutputRow ℤ),
            ⟨"running shoe", 10, RowClass.Master⟩,
            ⟨"red running shoe", 2, RowClass.Primary⟩,
            ⟨"running shoe", 7, RowClass.Primary⟩,
            ⟨"shoe", 3, RowClass.Secondary⟩] =
        [⟨"red running shoe", 12, RowClass.Master⟩,
          ⟨"running shoe", 10, RowClass.Master⟩] := by
  decide

/-- C8 counterexample: the first raw record lacks a keyword, yet the
invocation does not fail: pandas coerces the missing keyword to the text
"nan" and the run emits a full output ("a" is even a substring of "nan", so
"nan" becomes Primary with master ranking 5 + 3 = 8). -/
theorem claim_C8_counterexample :
    (⟨none, some 5⟩ : RawRecord).keyword = none ∧
      analyze_raw [⟨none, some 5⟩, ⟨some "a", some 3⟩] =
        some [⟨"nan", (8 : WithBot ℤ), RowClass.Master⟩,
          ⟨"nan", (5 : WithBot ℤ), RowClass.Primary⟩,
          ⟨"a", (3 : WithBot ℤ), RowClass.Secondary⟩] := by
  refine ⟨rfl, by decide⟩

/-- C8 as amended: a malformed record does not abort the invocation; on any
nonempty raw input, including inputs with records lacking a keyword or a
ranking, the operation succeeds and emits a nonempty output (a missing
keyword is coerced to the text "nan", a missing ranking propagates as NaN
through the ranking sums). -/
theorem claim_C8 (raw : List RawRecord) (hne : raw ≠ []) :
    ∃ out, analyze_raw raw = some out ∧ out ≠ [] := by
  have hne2 : raw.map loadRecord ≠ [] := fun e => hne (List.map_eq_nil_iff.mp e)
  rw [analyze_raw]
  cases hout : analyze_keywords (raw.map loadRecord) with
  | none =>
    exfalso
    rw [analyze_keywords] at hout
    by_cases hemp : (raw.map loadRecord).isEmpty
    · exact hne2 (List.isEmpty_iff.mp hemp)
    · rw [if_neg hemp] at hout
      exact Option.noConfusion hout
  | some out =>
    refine ⟨out, rfl, ?_⟩
    have hlen := (analyze_perm hout).length_eq
    rw [List.length_append] at hlen
    have hcl : (classify (raw.map loadRecord)).length = (raw.map loadRecord).length := by
      rw [classify, List.length_map]
    intro e
    rw [e] at hlen
    simp only [List.length_nil] at hlen
    have hz : (raw.map loadRecord).length = 0 := by omega
    exact hne2 (List.length_eq_zero.mp hz)

/-- Witness for the amended C8 at the raw input `[{}]`, a single record with
both fields missing. -/
theorem claim_C8_witness :
    ([(⟨none, none⟩ : RawRecord)] ≠ []) ∧
      ∃ out, analyze_raw [⟨none, none⟩] = some out ∧ out ≠ [] :=
  ⟨by decide, claim_C8 [⟨none, none⟩] (by decide)⟩

/-- C5: the output is sorted ascending by the composite key (master group,
tier, keyword), where the master group is the map lookup of the row's
keyword falling back to the keyword itself, the tier imposes
Master < Primary < Secondary, and remaining ties are broken by exact-text
alphabetical comparison of the keyword. -/
theorem claim_C5 (input : List (KeywordRecord ℤ)) (out : List (OutputRow ℤ))
    (h : analyze_keywords input = some out) :
    out.Pairwise (fun a b =>
      masterGroup (keyword_master_group_map input) a.keyword <
          masterGroup (keyword_master_group_map input) b.keyword ∨
        (masterGroup (keyword_master_group_map input) a.keyword =
            masterGroup (keyword_master_group_map input) b.keyword ∧
          (tierRank a.cls < tierRank b.cls ∨
            (tierRank a.cls = tierRank b.cls ∧
              (a.keyword < b.keyword ∨ a.keyword = b.keyword))))) := by
  rcases analyze_some_iff.mp h with ⟨-, rfl⟩
  haveI : IsTotal (OutputRow ℤ)
      (fun a b => rowLeB (keyword_master_group_map input) a b = true) :=
    ⟨rowLeB_total _⟩
  haveI : IsTrans (OutputRow ℤ)
      (fun a b => rowLeB (keyword_master_group_map input) a b = true) :=
    ⟨rowLeB_trans _⟩
  have hs := List.sorted_insertionSort
    (fun a b => rowLeB (keyword_master_group_map input) a b = true)
    (classify input ++ master_rows input)
  exact hs.imp (fun hab => (keyLeB_iff _ _).mp hab)

/-- Witness for C5 at `[("ab", 1), ("b", 2)]`. -/
theorem claim_C5_witness :
    analyze_keywords [(⟨"ab", 1⟩ : KeywordRecord ℤ), ⟨"b", 2⟩] =
        some [⟨"ab", 3, RowClass.Master⟩, ⟨"ab", 1, RowClass.Primary⟩,
          ⟨"b", 2, RowClass.Secondary⟩] ∧
      List.Pairwise (fun a b : OutputRow ℤ =>
        masterGroup (keyword_master_group_map
              [(⟨"ab", 1⟩ : KeywordRecord ℤ), ⟨"b", 2⟩]) a.keyword <
            masterGroup (keyword_master_group_map
              [(⟨"ab", 1⟩ : KeywordRecord ℤ), ⟨"b", 2⟩]) b.keyword ∨
          (masterGroup (keyword_master_group_map
                [(⟨"ab", 1⟩ : KeywordRecord ℤ), ⟨"b", 2⟩]) a.keyword =
              masterGroup (keyword_master_group_map
                [(⟨"ab", 1⟩ : KeywordRecord ℤ), ⟨"b", 2⟩]) b.keyword ∧
            (tierRank a.cls < tierRank b.cls ∨
              (tierRank a.cls = tierRank b.cls ∧
                (a.keyword < b.keyword ∨ a.keyword = b.keyword)))))
        [⟨"ab", 3, RowClass.Master⟩, ⟨"ab", 1, RowClass.Primary⟩,
          ⟨"b", 2, RowClass.Secondary⟩] :=
  ⟨by decide,
    claim_C5 [⟨"ab", 1⟩, ⟨"b", 2⟩]
      [⟨"ab", 3, RowClass.Master⟩, ⟨"ab", 1, RowClass.Primary⟩,
        ⟨"b", 2, RowClass.Secondary⟩] (by decide)⟩

/-- C7: every row of the output carries a class that is exactly one of the
three values Master, Primary, Secondary. -/
theorem claim_C7 (input : List (KeywordRecord ℤ)) (out : List (OutputRow ℤ))
    (h : analyze_keywords input = some out) (r : OutputRow ℤ) (hr : r ∈ out) :
    r.cls = RowClass.Master ∨ r.cls = RowClass.Primary ∨
      r.cls = RowClass.Secondary := by
  cases hc : r.cls with
  | Master => exact Or.inl rfl
  | Primary => exact Or.inr (Or.inl rfl)
  | Secondary => exact Or.inr (Or.inr rfl)

/-- Witness for C7 at `[("ab", 1), ("b", 2)]` and the Master row of its
output. -/
theorem claim_C7_witness :
    analyze_keywords [(⟨"ab", 1⟩ : KeywordRecord ℤ), ⟨"b", 2⟩] =
        some [⟨"ab", 3, RowClass.Master⟩, ⟨"ab", 1, RowClass.Primary⟩,
          ⟨"b", 2, RowClass.Secondary⟩] ∧
      ((⟨"ab", 3, RowClass.Master⟩ : OutputRow ℤ) ∈
        [(⟨"ab", 3, RowClass.Master⟩ : OutputRow ℤ), ⟨"ab", 1, RowClass.Primary⟩,
          ⟨"b", 2, RowClass.Secondary⟩]) ∧
      ((⟨"ab", 3, RowClass.Master⟩ : OutputRow ℤ).cls = RowClass.Master ∨
        (⟨"ab", 3, RowClass.Master⟩ : OutputRow ℤ).cls = RowClass.Primary ∨
        (⟨"ab", 3, RowClass.Master⟩ : OutputRow ℤ).cls = RowClass.Secondary) :=
  ⟨by decide, by decide,
    claim_C7 [⟨"ab", 1⟩, ⟨"b", 2⟩]
      [⟨"ab", 3, RowClass.Master⟩, ⟨"ab", 1, RowClass.Primary⟩,
        ⟨"b", 2, RowClass.Secondary⟩]
      (by decide) ⟨"ab", 3, RowClass.Master⟩ (by decide)⟩

/-- C9: the non-Master rows of the output are exactly the classified input
records (each input record appears once, ranking unchanged, only the class
annotation added), stripping the class annotation from the classified rows
recovers the input, the number of Master rows equals the number of
Primary-classified records (duplicate-text Primary records each yield their
own Master row), and the output length is the input length plus the number
of Primary records. -/
theorem claim_C9 (input : List (KeywordRecord ℤ)) (out : List (OutputRow ℤ))
    (h : analyze_keywords input = some out) :
    (out.filter (fun r => !(r.cls == RowClass.Master))).Perm (classify input) ∧
      (classify input).map (fun r => (⟨r.keyword, r.ranking⟩ : KeywordRecord ℤ)) =
        input ∧
      (out.filter (fun r => r.cls == RowClass.Master)).length =
        ((classify input).filter (fun r => r.cls == RowClass.Primary)).length ∧
      out.length = input.length +
        ((classify input).filter (fun r => r.cls == RowClass.Primary)).length := by
  have hperm := analyze_perm h
  have hM : (classify input ++ master_rows input).filter
      (fun r => r.cls == RowClass.Master) = master_rows input := by
    rw [List.filter_append]
    have h1 : (classify input).filter (fun r => r.cls == RowClass.Master) = [] := by
      rw [List.filter_eq_nil_iff]
      intro a ha
      simpa using classify_cls_ne_master ha
    have h2 : (master_rows input).filter (fun r => r.cls == RowClass.Master) =
        master_rows input := by
      rw [List.filter_eq_self]
      intro a ha
      simpa using master_rows_cls ha
    rw [h1, h2, List.nil_append]
  have hNM : (classify input ++ master_rows input).filter
      (fun r => !(r.cls == RowClass.Master)) = classify input := by
    rw [List.filter_append]
    have h1 : (classify input).filter (fun r => !(r.cls == RowClass.Master)) =
        classify input := by
      rw [List.filter_eq_self]
      intro a ha
      simpa using classify_cls_ne_master ha
    have h2 : (master_rows input).filter
        (fun r => !(r.cls == RowClass.Master)) = [] := by
      rw [List.filter_eq_nil_iff]
      intro a ha
      simpa using master_rows_cls ha
    rw [h1, h2, List.append_nil]
  have hstrip : (classify input).map
      (fun r => (⟨r.keyword, r.ranking⟩ : KeywordRecord ℤ)) = input := by
    rw [classify, List.map_map]
    show List.map id input = input
    exact List.map_id input
  have hfilP : ((classify input).filter
      (fun r => r.cls == RowClass.Primary)).length =
      (primary_keywords input).length := by
    rw [classify, List.filter_map, List.length_map, primary_keywords]
    congr 1
    apply List.filter_congr
    intro s _
    by_cases hp : is_primary (all_keywords input) s.keyword = true
    · simp [hp]
    · simp [hp]
  have hml : (master_rows input).length = (primary_keywords input).length := by
    rw [master_rows, List.length_map]
  have hcll : (classify input).length = input.length := by
    rw [classify, List.length_map]
  refine ⟨?_, hstrip, ?_, ?_⟩
  · exact hNM ▸ hperm.filter (fun r => !(r.cls == RowClass.Master))
  · have hl := (hperm.filter (fun r => r.cls == RowClass.Master)).length_eq
    rw [hM] at hl
    rw [hl, hml]
    exact hfilP.symm
  · have hlen := hperm.length_eq
    rw [List.length_append] at hlen
    omega

/-- Witness for C9 at `[("ab", 1), ("b", 2)]`. -/
theorem claim_C9_witness :
    analyze_keywords [(⟨"ab", 1⟩ : KeywordRecord ℤ), ⟨"b", 2⟩] =
        some [⟨"ab", 3, RowClass.Master⟩, ⟨"ab", 1, RowClass.Primary⟩,
          ⟨"b", 2, RowClass.Secondary⟩] ∧
      (([(⟨"ab", 3, RowClass.Master⟩ : OutputRow ℤ), ⟨"ab", 1, RowClass.Primary⟩,
          ⟨"b", 2, RowClass.Secondary⟩].filter
          (fun r => !(r.cls == RowClass.Master))).Perm
        (classify [(⟨"ab", 1⟩ : KeywordRecord ℤ), ⟨"b", 2⟩]) ∧
      (classify [(⟨"ab", 1⟩ : KeywordRecord ℤ), ⟨"b", 2⟩]).map
          (fun r => (⟨r.keyword, r.ranking⟩ : KeywordRecord ℤ)) =
        [⟨"ab", 1⟩, ⟨"b", 2⟩] ∧
      ([(⟨"ab", 3, RowClass.Master⟩ : OutputRow ℤ), ⟨"ab", 1, RowClass.Primary⟩,
          ⟨"b", 2, RowClass.Secondary⟩].filter
          (fun r => r.cls == RowClass.Master)).length =
        ((classify [(⟨"ab", 1⟩ : KeywordRecord ℤ), ⟨"b", 2⟩]).filter
          (fun r => r.cls == RowClass.Primary)).length ∧
      ([(⟨"ab", 3, RowClass.Master⟩ : OutputRow ℤ), ⟨"ab", 1, RowClass.Primary⟩,
          ⟨"b", 2, RowClass.Secondary⟩] : List (OutputRow ℤ)).length =
        ([(⟨"ab", 1⟩ : KeywordRecord ℤ), ⟨"b", 2⟩] : List (KeywordRecord ℤ)).length +
          ((classify [(⟨"ab", 1⟩ : KeywordRecord ℤ), ⟨"b", 2⟩]).filter
            (fun r => r.cls == RowClass.Primary)).length) :=
  ⟨by decide,
    claim_C9 [⟨"ab", 1⟩, ⟨"b", 2⟩]
      [⟨"ab", 3, RowClass.Master⟩, ⟨"ab", 1, RowClass.Primary⟩,
        ⟨"b", 2, RowClass.Secondary⟩] (by decide)⟩

/-- C10: on the empty input the operation does not return an empty output;
it fails (the empty working frame has no `Keyword` column to coerce, so the
real function raises a `KeyError`, embedded as `none`). -/
theorem claim_C10 : analyze_keywords ([] : List (KeywordRecord ℤ)) = none := rfl

end RankedTextSearch
